import Mathlib

/-!
Shallow embedding of the `Buffer::RingBuffer<Element>` circular buffer
(sequential variant in the header with plain `std::size_t` fields, concurrent
variant in the header with one atomic per index cell), together with proofs
about its insert, extract and lifecycle operations.

Modelling conventions:
* a slot of raw aligned storage is an `Option α`: `some v` is a slot holding a
  live, constructed `Element`, `none` is a slot with no live `Element`
  (never constructed, or already destructed);
* `std::size_t` index arithmetic is `Nat` arithmetic; where the C++ source
  relies on unsigned wraparound cancelling out (for example
  `writePosition_ - 1 - samplesBackward % capacity_ + capacity_`) the Lean
  term adds the compensating `+ capacity` term first, which is value-equal
  for every `capacity > 0`, and each such reordering is noted at the
  definition;
* an operation whose C++ execution is undefined returns `none` in an
  `Option`-valued result (the single-element insert when `capacity_ == 0`
  reaches a modulo by zero and an out-of-bounds placement-new; `reset()` on a
  partially filled buffer underflows a `size_t` bound and destructs out of
  bounds);
* the raw-memory allocation done by `reset(newCapacity)` can fail (throw);
  its outcome is an explicit `Bool` parameter of the model, and on failure the
  model stops where the C++ call would have thrown.
-/

namespace Buffer

/-- State of the sequential `Buffer::RingBuffer<Element>`: the slot array
`buffer_` (one `Option α` per unit of aligned storage), `capacity_`,
`writePosition_` and `currentSize_`. -/
@[ext]
structure RingBuffer (α : Type) where
  buffer : List (Option α)
  capacity : Nat
  writePosition : Nat
  currentSize : Nat
deriving DecidableEq, Repr

/-- The explicit constructor `RingBuffer(const std::size_t capacity)`:
`capacity` fresh slots with no live occupant, both positions zero.
`mkRingBuffer 0` is the state built by the default constructor. -/
def mkRingBuffer {α : Type} (capacity : Nat) : RingBuffer α :=
  ⟨List.replicate capacity none, capacity, 0, 0⟩

/-- One step of `destruct(from, to)`: destruct `k` consecutive occupants
starting at slot `lo` (the C++ `enumerate` walks `to - from` storage cells and
calls each occupant's destructor, leaving the slot without a live element). -/
def destructCount {α : Type} : List (Option α) → Nat → Nat → List (Option α)
  | d, _, 0 => d
  | d, lo, k + 1 => destructCount (d.set lo none) (lo + 1) k

/-- `RingBuffer::destruct(from, to)`: destructs the occupants of slots
`from`, ..., `to - 1`. -/
def destruct {α : Type} (d : List (Option α)) (lo hi : Nat) : List (Option α) :=
  destructCount d lo (hi - lo)

/-- The writing loop of `std::uninitialized_copy` as used by
`insertBlockElements`: construct the given source elements in consecutive
slots starting at `destinationStart`. -/
def writeSpan {α : Type} : List (Option α) → Nat → List α → List (Option α)
  | d, _, [] => d
  | d, i, x :: xs => writeSpan (d.set i (some x)) (i + 1) xs

/-- The state transformation of `insertImpl(sample)` when `capacity_ > 0`:
destruct the occupant at `writePosition_` when full (a destructor call leaves
the slot contents about to be overwritten either way), otherwise grow
`currentSize_`; placement-new the sample at `writePosition_`; advance
`writePosition_` modulo `capacity_`. -/
def insertStep {α : Type} (b : RingBuffer α) (sample : α) : RingBuffer α :=
  { b with
    buffer := b.buffer.set b.writePosition (some sample)
    currentSize := if b.currentSize = b.capacity then b.currentSize else b.currentSize + 1
    writePosition := (b.writePosition + 1) % b.capacity }

/-- `RingBuffer::insertImpl(sample)` (single-element insert). When
`capacity_ == 0` the C++ body calls a destructor and a placement-new on slot 0
of a zero-length allocation and then computes `(writePosition_ + 1) % 0`,
a division by zero: the execution is undefined, which the model renders as
`none`. Otherwise the insert always succeeds with the state `insertStep`. -/
def insertImpl {α : Type} (b : RingBuffer α) (sample : α) : Option (RingBuffer α) :=
  if b.capacity = 0 then none else some (insertStep b sample)

/-- A sequence of single-element inserts, first list element inserted first. -/
def insertList {α : Type} : RingBuffer α → List α → Option (RingBuffer α)
  | b, [] => some b
  | b, x :: xs =>
    match insertImpl b x with
    | none => none
    | some b1 => insertList b1 xs

/-- `RingBuffer::copy(samplesBackward)` (sequential variant): on an empty
buffer return a default-constructed `Element` (modelled as `none`); otherwise
return by value the occupant of slot
`(writePosition_ - 1 - samplesBackward % capacity_ + capacity_) % capacity_`.
The Lean index adds `capacity` before subtracting; since
`samplesBackward % capacity ≤ capacity - 1`, the `size_t` value never wraps
and both expressions agree. The slot content is an `Option α`; a live slot
yields its `some` value. -/
def copy {α : Type} (b : RingBuffer α) (samplesBackward : Nat) : Option α :=
  if b.currentSize = 0 then none
  else b.buffer.getD
    ((b.writePosition + b.capacity - 1 - samplesBackward % b.capacity) % b.capacity) none

/-- `RingBuffer::reset(void)`: when occupied, destruct the occupied range
(split at the physical end of the buffer exactly as the source does) and zero
both `writePosition_` and `currentSize_`. The C++ oldest-element index
`(writePosition_ - currentSize_ + capacity_) % capacity_` is written with the
`+ capacity` first; it never wraps because `currentSize_ ≤ writePosition_ +
capacity_` in every state with `currentSize_ ≤ capacity_`. The second bound
`supposedNewestElement - capacity_`, however, is a plain `size_t` subtraction:
when `supposedNewestElement < capacity_` (a partially filled buffer, whose
occupants all sit below the physical end) it wraps to a huge positive value
and the guarded second `destruct` walks far past the allocation — undefined
behavior, rendered as `none`. When it does not wrap, its value is the `Nat`
difference and the call completes. -/
def reset {α : Type} (b : RingBuffer α) : Option (RingBuffer α) :=
  if b.currentSize = 0 then some b
  else
    let oldestElement := (b.writePosition + b.capacity - b.currentSize) % b.capacity
    let supposedNewestElement := oldestElement + b.currentSize
    let factualNewestElement := min supposedNewestElement b.capacity
    let d1 := destruct b.buffer oldestElement factualNewestElement
    if supposedNewestElement < b.capacity then none
    else
      let factualNewestElement2 := supposedNewestElement - b.capacity
      let d2 := if factualNewestElement2 > 0 then destruct d1 0 factualNewestElement2 else d1
      some { b with buffer := d2, writePosition := 0, currentSize := 0 }

/-- `RingBuffer::reset(newCapacity)`: `reset()`, then `capacity_ = newCapacity`,
then `buffer_.reset(new ElementStorageType[newCapacity])`. The array `new` may
throw; `allocSucceeds` is its outcome. On success the old storage is released
and replaced by `newCapacity` fresh slots; on failure the call aborts by the
exception after `capacity_` has already been assigned and while the old
storage is still held. -/
def resetWithCapacity {α : Type} (b : RingBuffer α) (newCapacity : Nat)
    (allocSucceeds : Bool) : Option (RingBuffer α) :=
  match reset b with
  | none => none
  | some b1 =>
    let b2 := { b1 with capacity := newCapacity }
    some (if allocSucceeds then { b2 with buffer := List.replicate newCapacity none } else b2)

/-- `RingBuffer::insertBlockElements(source, sourceStart, destinationStart, number)`:
when the buffer is full, destruct the `number` occupants about to be
overwritten; then `std::uninitialized_copy` the `number` source elements
`source[sourceStart]`, ..., `source[sourceStart + number - 1]` into the slots
starting at `destinationStart`; finally, when not yet full, grow
`currentSize_` to `min(capacity_, currentSize_ + number)`. -/
def insertBlockElements {α : Type} (b : RingBuffer α) (source : List α)
    (sourceStart destinationStart number : Nat) : RingBuffer α :=
  let d0 := if b.currentSize = b.capacity then
      destruct b.buffer destinationStart (destinationStart + number)
    else b.buffer
  let d1 := writeSpan d0 destinationStart ((source.drop sourceStart).take number)
  { b with
    buffer := d1
    currentSize := if b.currentSize < b.capacity then
        min b.capacity (b.currentSize + number)
      else b.currentSize }

/-- `RingBuffer::insertBlockImpl(block, blockLength)`: crop the block to
`adjustedBlockLength = min(blockLength, capacity_)` trailing elements, then
either write it as one span at `writePosition_`, or, when it would run past
the physical end, split it into a span up to the end and a span from slot 0,
with the source offsets and the cursor update of the C++ source. The two
`size_t` expressions `adjustedBlockLength - capacity_ + writePosition_`
(reached only when `writePosition_ + adjustedBlockLength > capacity_`) are
written with the additions first; they never wrap. The trailing
`if (writePosition_ > capacity_ - 1)` reset compares against
`SIZE_MAX` when `capacity_ == 0` (so it never fires then), hence the
`0 < capacity` conjunct. -/
def insertBlockImpl {α : Type} (b : RingBuffer α) (block : List α)
    (blockLength : Nat) : RingBuffer α :=
  let adjustedBlockLength := if blockLength > b.capacity then b.capacity else blockLength
  let b1 : RingBuffer α :=
    if b.writePosition + adjustedBlockLength > b.capacity then
      let bA := insertBlockElements b block
        (blockLength - adjustedBlockLength)
        b.writePosition
        (b.capacity - b.writePosition)
      let bB := insertBlockElements bA block
        (b.capacity - b.writePosition)
        0
        (adjustedBlockLength + b.writePosition - b.capacity)
      { bB with writePosition := adjustedBlockLength + b.writePosition - b.capacity }
    else
      let bA := insertBlockElements b block
        (blockLength - adjustedBlockLength)
        b.writePosition
        adjustedBlockLength
      { bA with writePosition := b.writePosition + adjustedBlockLength }
  if 0 < b1.capacity ∧ b1.capacity ≤ b1.writePosition then
    { b1 with writePosition := 0 }
  else b1

/-- One insert operation of the public interface: single-element
`insert(sample)` or bulk `insert(block, blockLength)` with the block's full
length. -/
inductive InsertOp (α : Type) where
  | single (sample : α)
  | block (xs : List α)
deriving DecidableEq, Repr

/-- Run one insert operation (the single-element form is undefined on
capacity 0, see `insertImpl`). -/
def applyInsertOp {α : Type} (b : RingBuffer α) : InsertOp α → Option (RingBuffer α)
  | .single x => insertImpl b x
  | .block xs => some (insertBlockImpl b xs xs.length)

/-- Run a sequence of insert operations, first operation first. -/
def runInserts {α : Type} : RingBuffer α → List (InsertOp α) → Option (RingBuffer α)
  | b, [] => some b
  | b, op :: ops =>
    match applyInsertOp b op with
    | none => none
    | some b1 => runInserts b1 ops

/-- Number of elements offered by one insert operation. -/
def opElements {α : Type} : InsertOp α → Nat
  | .single _ => 1
  | .block xs => xs.length

/-- Total number of elements ever offered by a sequence of inserts. -/
def totalInserted {α : Type} (ops : List (InsertOp α)) : Nat :=
  (ops.map opElements).sum

/-- The loop of `extractBlockElementsImpl(source, destination, first, last,
std::true_type)` (the copying form used by the sequential variant): `k`
iterations of `enumerate`, each assigning the occupant of source slot
`first + index` to `destination[destIndex + index]`. Reading a slot with no
live occupant is indeterminate in C++; the model hands back `default`. -/
def extractLoop {α : Type} [Inhabited α] (source : List (Option α)) :
    List α → Nat → Nat → Nat → List α
  | destination, _, _, 0 => destination
  | destination, destIndex, first, k + 1 =>
    extractLoop source
      (destination.set destIndex ((source.getD first none).getD default))
      (destIndex + 1) (first + 1) k

/-- `RingBuffer::extractBlockElementsImpl(source, destination, first, last,
std::true_type)`: copy source slots `first, ..., last - 1` to consecutive
destination cells starting at `destOffset` (the C++ passes an advanced
destination pointer for the second span; `destOffset` is that advance). -/
def extractBlockElementsImpl {α : Type} [Inhabited α] (source : List (Option α))
    (destination : List α) (destOffset first last : Nat) : List α :=
  extractLoop source destination destOffset first (last - first)

/-- `RingBuffer::extractBlockElements(source, destination, numberOfElements)`:
clamp the request to `currentSize_`; when nonzero, copy up to two contiguous
spans (wrapping modulo `currentSize_`, as the source does) into the
destination and return it with the clamped count. -/
def extractBlockElements {α : Type} [Inhabited α] (b : RingBuffer α)
    (destination : List α) (numberOfElements : Nat) : List α × Nat :=
  let n := if numberOfElements > b.currentSize then b.currentSize else numberOfElements
  if n > 0 then
    let start := (b.writePosition + (b.currentSize - n)) % b.currentSize
    let size := if b.currentSize - start < n then b.currentSize - start else n
    let d1 := extractBlockElementsImpl b.buffer destination 0 start (start + size)
    let numberOfRemaining := n - size
    let startOfRemaining := (start + size) % b.currentSize
    let d2 :=
      if numberOfRemaining > 0 then
        extractBlockElementsImpl b.buffer d1 size startOfRemaining
          (startOfRemaining + numberOfRemaining)
      else d1
    (d2, n)
  else (destination, n)

/-- The sequential variant's `RingBuffer::copy(Element* destination,
numberOfElements)`: it forwards `buffer_` as an lvalue to
`extractBlockElements` (selecting the copying `std::true_type`
implementation), and its code path contains no store to any member field, so
the post-call buffer state it hands back is the pre-call state. -/
def copyBlock {α : Type} [Inhabited α] (b : RingBuffer α) (destination : List α)
    (numberOfElements : Nat) : RingBuffer α × List α × Nat :=
  (b, extractBlockElements b destination numberOfElements)

/-- The logical contents of the buffer, oldest first: element `j` is the
occupant of slot `(writePosition - currentSize + capacity + j) % capacity`
(the spec's occupancy range), written with the `+ capacity` first. -/
def logicalWindow {α : Type} (b : RingBuffer α) : List (Option α) :=
  (List.range b.currentSize).map
    (fun j => b.buffer.getD ((b.writePosition + b.capacity - b.currentSize + j) % b.capacity) none)

/-- The states reachable through the public interface: the slot array has
`capacity` cells, `currentSize ≤ capacity`, the write cursor is in range
(`0` when `capacity = 0`), and a not-yet-full buffer has been filled from
slot 0, so its cursor sits at `currentSize`. -/
def Reachable {α : Type} (b : RingBuffer α) : Prop :=
  b.buffer.length = b.capacity ∧
  b.currentSize ≤ b.capacity ∧
  (b.currentSize < b.capacity → b.writePosition = b.currentSize) ∧
  (b.capacity = 0 → b.writePosition = 0) ∧
  (0 < b.capacity → b.writePosition < b.capacity)

instance {α : Type} (b : RingBuffer α) : Decidable (Reachable b) := by
  unfold Reachable; infer_instance

/-- State of the concurrent (lock-free) `Buffer::RingBuffer<Element>` variant:
the same fields plus the advisory `readPosition_`. The model gives the
single-thread view of each operation (loads read the current cell values,
stores replace them). -/
structure CRingBuffer (α : Type) where
  buffer : List (Option α)
  capacity : Nat
  readPosition : Nat
  writePosition : Nat
  currentSize : Nat
deriving DecidableEq, Repr

/-- `RingBuffer::extractImpl(samplesBackward)` of the concurrent variant: on an
empty buffer return a default-constructed `Element` immediately (before the
`readPosition_` store, so the index state is untouched); otherwise copy the
occupant of the same wrapped index as the sequential `copy` and then store
`readPosition_ = writePosition_` (release). Result: post-call state together
with the returned element. -/
def extractImpl {α : Type} (b : CRingBuffer α) (samplesBackward : Nat) :
    CRingBuffer α × Option α :=
  if b.currentSize = 0 then (b, none)
  else
    ({ b with readPosition := b.writePosition },
      b.buffer.getD
        ((b.writePosition + b.capacity - 1 - samplesBackward % b.capacity) % b.capacity) none)

/-- Observable state of one caller-owned source element across an insert call:
still holding its value, or left in its type's moved-from state. -/
inductive MCell (α : Type) where
  | live (x : α)
  | movedFrom
deriving DecidableEq, Repr

/-- Effect on the source of iterating `std::move_iterator`s over source
indices `[s, s + n)` inside `std::uninitialized_copy`: each iterated element
is move-constructed from, leaving it moved-from. -/
def moveRange {α : Type} : List (MCell α) → Nat → Nat → List (MCell α)
  | src, _, 0 => src
  | src, s, n + 1 => moveRange (src.set s MCell.movedFrom) (s + 1) n

/-- Effect of `insertBlockImpl(block, blockLength)` on the caller's source
array. `make_forward_iterator` dispatches on
`std::is_lvalue_reference<T&&>`: a source offered by lvalue reference is
iterated with plain iterators (`std::uninitialized_copy` copy-constructs,
source untouched), a source offered as an owned temporary is iterated with
`std::move_iterator`s (move-construction, each iterated element left
moved-from). The iterated index ranges are exactly the
`(sourceStart, number)` pairs `insertBlockImpl` passes to
`insertBlockElements`, in call order. -/
def insertBlockSourceEffect {α : Type} (capacity writePosition : Nat) (rvalue : Bool)
    (src : List (MCell α)) (blockLength : Nat) : List (MCell α) :=
  if !rvalue then src
  else
    let adjustedBlockLength := if blockLength > capacity then capacity else blockLength
    if writePosition + adjustedBlockLength > capacity then
      moveRange
        (moveRange src (blockLength - adjustedBlockLength) (capacity - writePosition))
        (capacity - writePosition)
        (adjustedBlockLength + writePosition - capacity)
    else
      moveRange src (blockLength - adjustedBlockLength) adjustedBlockLength

/-! Pointwise descriptions of the loop primitives. -/

theorem getD_set_self {β : Type} {l : List β} {i : Nat} {a d : β} (h : i < l.length) :
    (l.set i a).getD i d = a := by
  simp [List.getD_eq_getElem?_getD, List.getElem?_set_self, h]

theorem getD_set_ne {β : Type} {l : List β} {i j : Nat} {a d : β} (h : i ≠ j) :
    (l.set i a).getD j d = l.getD j d := by
  simp [List.getD_eq_getElem?_getD, List.getElem?_set_ne h]

theorem length_destructCount {α : Type} :
    ∀ (k : Nat) (d : List (Option α)) (lo : Nat),
      (destructCount d lo k).length = d.length := by
  intro k
  induction k with
  | zero => intro d lo; rfl
  | succ k ih =>
    intro d lo
    simp only [destructCount, ih, List.length_set]

theorem getD_destructCount {α : Type} :
    ∀ (k : Nat) (d : List (Option α)) (lo p : Nat), p < d.length →
      (destructCount d lo k).getD p none =
        if lo ≤ p ∧ p < lo + k then none else d.getD p none := by
  intro k
  induction k with
  | zero =>
    intro d lo p _
    simp only [destructCount]
    rw [if_neg (by omega)]
  | succ k ih =>
    intro d lo p hp
    simp only [destructCount]
    rw [ih (d.set lo none) (lo + 1) p (by simpa using hp)]
    by_cases hpl : p = lo
    · subst hpl
      rw [if_neg (by omega), if_pos (by omega), getD_set_self hp]
    · rw [getD_set_ne (Ne.symm hpl)]
      by_cases hin : lo + 1 ≤ p ∧ p < lo + 1 + k
      · rw [if_pos hin, if_pos (by omega)]
      · rw [if_neg hin, if_neg (by omega)]

theorem length_writeSpan {α : Type} :
    ∀ (xs : List α) (d : List (Option α)) (i : Nat),
      (writeSpan d i xs).length = d.length := by
  intro xs
  induction xs with
  | nil => intro d i; rfl
  | cons x xs ih =>
    intro d i
    simp only [writeSpan, ih, List.length_set]

theorem getD_writeSpan {α : Type} :
    ∀ (xs : List α) (d : List (Option α)) (i p : Nat), p < d.length →
      (writeSpan d i xs).getD p none =
        if i ≤ p ∧ p < i + xs.length then xs[p - i]? else d.getD p none := by
  intro xs
  induction xs with
  | nil =>
    intro d i p _
    simp only [writeSpan, List.length_nil]
    rw [if_neg (by omega)]
  | cons x xs ih =>
    intro d i p hp
    simp only [writeSpan]
    rw [ih (d.set i (some x)) (i + 1) p (by simpa using hp)]
    by_cases hpl : p = i
    · subst hpl
      rw [if_neg (by omega), if_pos (by simp), getD_set_self hp]
      simp
    · by_cases hin : i + 1 ≤ p ∧ p < i + 1 + xs.length
      · rw [if_pos hin, if_pos (by simp; omega)]
        have hsub : p - i = (p - (i + 1)) + 1 := by omega
        rw [hsub, List.getElem?_cons_succ]
      · rw [if_neg hin, getD_set_ne (Ne.symm hpl), if_neg (by simp; omega)]

theorem length_extractLoop {α : Type} [Inhabited α] (source : List (Option α)) :
    ∀ (k : Nat) (d : List α) (di fi : Nat),
      (extractLoop source d di fi k).length = d.length := by
  intro k
  induction k with
  | zero => intro d di fi; rfl
  | succ k ih =>
    intro d di fi
    simp only [extractLoop, ih, List.length_set]

theorem getD_extractLoop {α : Type} [Inhabited α] (source : List (Option α)) (d0 : α) :
    ∀ (k : Nat) (d : List α) (di fi p : Nat), p < d.length →
      (extractLoop source d di fi k).getD p d0 =
        if di ≤ p ∧ p < di + k then (source.getD (fi + (p - di)) none).getD default
        else d.getD p d0 := by
  intro k
  induction k with
  | zero =>
    intro d di fi p _
    simp only [extractLoop]
    rw [if_neg (by omega)]
  | succ k ih =>
    intro d di fi p hp
    simp only [extractLoop]
    rw [ih _ (di + 1) (fi + 1) p (by simpa using hp)]
    by_cases hpl : p = di
    · subst hpl
      rw [if_neg (by omega), if_pos (by omega), getD_set_self hp]
      simp
    · by_cases hin : di + 1 ≤ p ∧ p < di + 1 + k
      · rw [if_pos hin, if_pos (by omega)]
        have hsub : fi + 1 + (p - (di + 1)) = fi + (p - di) := by omega
        rw [hsub]
      · rw [if_neg hin, getD_set_ne (Ne.symm hpl), if_neg (by omega)]

theorem length_moveRange {α : Type} :
    ∀ (n : Nat) (src : List (MCell α)) (s : Nat),
      (moveRange src s n).length = src.length := by
  intro n
  induction n with
  | zero => intro src s; rfl
  | succ n ih =>
    intro src s
    simp only [moveRange, ih, List.length_set]

theorem getD_moveRange {α : Type} (m0 : MCell α) :
    ∀ (n : Nat) (src : List (MCell α)) (s p : Nat), p < src.length →
      (moveRange src s n).getD p m0 =
        if s ≤ p ∧ p < s + n then MCell.movedFrom else src.getD p m0 := by
  intro n
  induction n with
  | zero =>
    intro src s p _
    simp only [moveRange]
    rw [if_neg (by omega)]
  | succ n ih =>
    intro src s p hp
    simp only [moveRange]
    rw [ih _ (s + 1) p (by simpa using hp)]
    by_cases hpl : p = s
    · subst hpl
      rw [if_neg (by omega), if_pos (by omega), getD_set_self hp]
    · by_cases hin : s + 1 ≤ p ∧ p < s + 1 + n
      · rw [if_pos hin, if_pos (by omega)]
      · rw [if_neg hin, getD_set_ne (Ne.symm hpl), if_neg (by omega)]

theorem ext_of_getD {α : Type} :
    ∀ (l1 l2 : List (Option α)), l1.length = l2.length →
      (∀ p, p < l1.length → l1.getD p none = l2.getD p none) → l1 = l2 := by
  intro l1
  induction l1 with
  | nil =>
    intro l2 hlen _
    exact (List.eq_nil_of_length_eq_zero hlen.symm).symm
  | cons a l1 ih =>
    intro l2 hlen hall
    cases l2 with
    | nil => simp at hlen
    | cons b l2 =>
      have h0 := hall 0 (by simp)
      simp only [List.getD_cons_zero] at h0
      have htail : l1 = l2 := by
        refine ih l2 (by simpa using hlen) ?_
        intro p hpl
        have := hall (p + 1) (by simpa using Nat.succ_lt_succ hpl)
        simpa [List.getD_cons_succ] using this
      rw [h0, htail]

/-! Characterization of a run of single-element inserts. -/

theorem insertStep_capacity {α : Type} (b : RingBuffer α) (x : α) :
    (insertStep b x).capacity = b.capacity := rfl

theorem insertList_spec {α : Type} :
    ∀ (xs : List α) (b : RingBuffer α),
      0 < b.capacity → b.buffer.length = b.capacity →
      b.writePosition < b.capacity → b.currentSize ≤ b.capacity →
      ∃ b', insertList b xs = some b' ∧
        b'.capacity = b.capacity ∧
        b'.buffer.length = b.capacity ∧
        b'.writePosition = (b.writePosition + xs.length) % b.capacity ∧
        b'.currentSize = min b.capacity (b.currentSize + xs.length) ∧
        (∀ i, i < xs.length → i < b.capacity →
          b'.buffer.getD ((b.writePosition + (xs.length - 1 - i)) % b.capacity) none
            = xs[xs.length - 1 - i]?) ∧
        (∀ p, p < b.capacity →
          (∀ j, j < xs.length → (b.writePosition + j) % b.capacity ≠ p) →
          b'.buffer.getD p none = b.buffer.getD p none) := by
  intro xs
  induction xs with
  | nil =>
    intro b hcap hlen hwp hsz
    refine ⟨b, rfl, rfl, hlen, ?_, ?_, ?_, ?_⟩
    · simp [Nat.mod_eq_of_lt hwp]
    · simp [Nat.min_eq_right hsz]
    · intro i hi _; exact absurd hi (by simp)
    · intro p _ _; rfl
  | cons x rest ih =>
    intro b hcap hlen hwp hsz
    have hcapne : b.capacity ≠ 0 := Nat.pos_iff_ne_zero.mp hcap
    set b1 := insertStep b x with hb1
    have hb1cap : b1.capacity = b.capacity := rfl
    have hb1buf : b1.buffer = b.buffer.set b.writePosition (some x) := rfl
    have hb1wp : b1.writePosition = (b.writePosition + 1) % b.capacity := rfl
    have hb1sz : b1.currentSize =
        if b.currentSize = b.capacity then b.currentSize else b.currentSize + 1 := rfl
    have hb1len : b1.buffer.length = b1.capacity := by
      rw [hb1buf, List.length_set, hlen, hb1cap]
    have hb1wplt : b1.writePosition < b1.capacity := by
      rw [hb1wp, hb1cap]; exact Nat.mod_lt _ hcap
    have hb1szle : b1.currentSize ≤ b1.capacity := by
      rw [hb1sz, hb1cap]
      by_cases h : b.currentSize = b.capacity
      · rw [if_pos h]; omega
      · rw [if_neg h]; omega
    obtain ⟨b', hrun, hcap', hlen', hwp', hsz', hA, hB⟩ :=
      ih b1 (hb1cap ▸ hcap) hb1len hb1wplt hb1szle
    have hstep : insertList b (x :: rest) = insertList b1 rest := by
      simp [insertList, insertImpl, hcapne, hb1]
    refine ⟨b', by rw [hstep, hrun], by rw [hcap', hb1cap], by rw [hlen', hb1cap], ?_, ?_, ?_, ?_⟩
    · rw [hwp', hb1wp, hb1cap, List.length_cons, Nat.mod_add_mod]
      congr 1
      omega
    · rw [hsz', hb1sz, hb1cap, List.length_cons]
      by_cases h : b.currentSize = b.capacity
      · rw [if_pos h, h]
        omega
      · rw [if_neg h]
        congr 1
        omega
    · intro i hi hic
      simp only [List.length_cons] at hi ⊢
      by_cases hiR : i < rest.length
      · have hpos : (b.writePosition + (rest.length + 1 - 1 - i)) % b.capacity
            = (b1.writePosition + (rest.length - 1 - i)) % b1.capacity := by
          rw [hb1wp, hb1cap, Nat.mod_add_mod]
          congr 1
          omega
        have hval : (x :: rest)[rest.length + 1 - 1 - i]? = rest[rest.length - 1 - i]? := by
          have hidx : rest.length + 1 - 1 - i = (rest.length - 1 - i) + 1 := by omega
          rw [hidx, List.getElem?_cons_succ]
        rw [hpos, hval]
        exact hA i hiR (hb1cap ▸ hic)
      · have hiE : i = rest.length := by omega
        subst hiE
        have hRlt : rest.length < b.capacity := hic
        have hpos : (b.writePosition + (rest.length + 1 - 1 - rest.length)) % b.capacity
            = b.writePosition := by
          have hz : rest.length + 1 - 1 - rest.length = 0 := by omega
          rw [hz, Nat.add_zero, Nat.mod_eq_of_lt hwp]
        have hval : (x :: rest)[rest.length + 1 - 1 - rest.length]? = some x := by
          have hz : rest.length + 1 - 1 - rest.length = 0 := by omega
          rw [hz]; simp
        rw [hpos, hval]
        have hwpb : b.writePosition < b1.capacity := hb1cap ▸ hwp
        have hfresh : ∀ j, j < rest.length →
            (b1.writePosition + j) % b1.capacity ≠ b.writePosition := by
          intro j hj habs
          rw [hb1wp, hb1cap, Nat.mod_add_mod] at habs
          have hmods : (b.writePosition + (1 + j)) % b.capacity
              = b.writePosition % b.capacity := by
            rw [Nat.mod_eq_of_lt hwp]
            rw [← habs]
            congr 1
            omega
          have hdvd : b.capacity ∣ (b.writePosition + (1 + j)) - b.writePosition :=
            (Nat.modEq_iff_dvd' (Nat.le_add_right _ _)).mp hmods.symm
          have hdvd2 : b.capacity ∣ 1 + j := by
            simpa using hdvd
          have := Nat.le_of_dvd (by omega) hdvd2
          omega
        have hkeep := hB b.writePosition hwpb hfresh
        rw [hkeep, hb1buf, getD_set_self (hlen ▸ hwp)]
    · intro p hp hnone
      have hfresh : ∀ j, j < rest.length → (b1.writePosition + j) % b1.capacity ≠ p := by
        intro j hj
        rw [hb1wp, hb1cap, Nat.mod_add_mod]
        have h1j : b.writePosition + 1 + j = b.writePosition + (j + 1) := by omega
        rw [h1j]
        exact hnone (j + 1) (by simp; omega)
      have hwpne : b.writePosition ≠ p := by
        have := hnone 0 (by simp)
        simpa [Nat.mod_eq_of_lt hwp] using this
      rw [hB p (hb1cap ▸ hp) hfresh, hb1buf, getD_set_ne hwpne]

/-! Characterization of the bulk insert. -/

theorem insertBlockElements_capacity {α : Type} (b : RingBuffer α) (src : List α)
    (s d n : Nat) : (insertBlockElements b src s d n).capacity = b.capacity := rfl

theorem insertBlockElements_writePosition {α : Type} (b : RingBuffer α) (src : List α)
    (s d n : Nat) : (insertBlockElements b src s d n).writePosition = b.writePosition := rfl

theorem insertBlockElements_currentSize {α : Type} (b : RingBuffer α) (src : List α)
    (s d n : Nat) : (insertBlockElements b src s d n).currentSize =
      if b.currentSize < b.capacity then min b.capacity (b.currentSize + n)
      else b.currentSize := rfl

theorem insertBlockElements_buffer_length {α : Type} (b : RingBuffer α) (src : List α)
    (s d n : Nat) : (insertBlockElements b src s d n).buffer.length = b.buffer.length := by
  simp only [insertBlockElements]
  rw [length_writeSpan]
  by_cases h : b.currentSize = b.capacity
  · rw [if_pos h]
    exact length_destructCount _ _ _
  · rw [if_neg h]

theorem insertBlockElements_buffer_getD {α : Type} (b : RingBuffer α) (src : List α)
    (s d n p : Nat) (hbound : s + n ≤ src.length) (hp : p < b.buffer.length) :
    (insertBlockElements b src s d n).buffer.getD p none =
      if d ≤ p ∧ p < d + n then src[s + (p - d)]? else b.buffer.getD p none := by
  simp only [insertBlockElements]
  have hslice : ((src.drop s).take n).length = n := by
    simp only [List.length_take, List.length_drop]
    omega
  have hd0len : (if b.currentSize = b.capacity then
      destruct b.buffer d (d + n) else b.buffer).length = b.buffer.length := by
    by_cases h : b.currentSize = b.capacity
    · rw [if_pos h]
      exact length_destructCount _ _ _
    · rw [if_neg h]
  rw [getD_writeSpan _ _ _ _ (by rw [hd0len]; exact hp), hslice]
  by_cases hin : d ≤ p ∧ p < d + n
  · rw [if_pos hin, if_pos hin]
    have hpd : p - d < n := by omega
    rw [List.getElem?_take, if_pos hpd, List.getElem?_drop]
  · rw [if_neg hin, if_neg hin]
    by_cases h : b.currentSize = b.capacity
    · rw [if_pos h]
      unfold destruct
      rw [getD_destructCount _ _ _ _ hp, if_neg (by omega)]
    · rw [if_neg h]

theorem insertBlockImpl_index_spec {α : Type} (b : RingBuffer α) (block : List α)
    (L : Nat) (hcap : 0 < b.capacity) (hwp : b.writePosition < b.capacity)
    (hsz : b.currentSize ≤ b.capacity) :
    (insertBlockImpl b block L).capacity = b.capacity ∧
    (insertBlockImpl b block L).buffer.length = b.buffer.length ∧
    (insertBlockImpl b block L).currentSize = min b.capacity (b.currentSize + L) ∧
    (insertBlockImpl b block L).writePosition
      = (b.writePosition + min L b.capacity) % b.capacity := by
  have hadj : (if L > b.capacity then b.capacity else L) = min L b.capacity := by
    split_ifs <;> omega
  simp only [insertBlockImpl, hadj]
  by_cases hwrap : b.writePosition + min L b.capacity > b.capacity
  · rw [if_pos hwrap]
    dsimp only
    simp only [insertBlockElements_capacity, insertBlockElements_writePosition,
      insertBlockElements_currentSize]
    have hfinal : ¬(0 < b.capacity ∧
        b.capacity ≤ min L b.capacity + b.writePosition - b.capacity) := by
      intro h
      omega
    rw [if_neg hfinal]
    refine ⟨rfl, ?_, ?_, ?_⟩
    · dsimp only
      rw [insertBlockElements_buffer_length, insertBlockElements_buffer_length]
    · dsimp only
      by_cases h1 : b.currentSize < b.capacity
      · rw [if_pos h1]
        by_cases h2 : min b.capacity (b.currentSize + (b.capacity - b.writePosition))
            < b.capacity
        · rw [if_pos h2]
          omega
        · rw [if_neg h2]
          omega
      · rw [if_neg h1]
        rw [if_neg (by omega)]
        omega
    · dsimp only
      have hmod : (b.writePosition + min L b.capacity) % b.capacity
          = b.writePosition + min L b.capacity - b.capacity := by
        rw [Nat.mod_eq_sub_mod (by omega), Nat.mod_eq_of_lt (by omega)]
      rw [hmod]
      omega
  · rw [if_neg hwrap]
    dsimp only
    simp only [insertBlockElements_capacity, insertBlockElements_writePosition,
      insertBlockElements_currentSize]
    by_cases hfin : 0 < b.capacity ∧ b.capacity ≤ b.writePosition + min L b.capacity
    · rw [if_pos hfin]
      refine ⟨rfl, ?_, ?_, ?_⟩
      · dsimp only
        rw [insertBlockElements_buffer_length]
      · dsimp only
        by_cases h1 : b.currentSize < b.capacity
        · rw [if_pos h1]
          omega
        · rw [if_neg h1]
          omega
      · dsimp only
        have heq : b.writePosition + min L b.capacity = b.capacity := by omega
        rw [heq, Nat.mod_self]
    · rw [if_neg hfin]
      have hlt : b.writePosition + min L b.capacity < b.capacity := by
        by_contra hge
        exact hfin ⟨hcap, by omega⟩
      refine ⟨rfl, ?_, ?_, ?_⟩
      · dsimp only
        rw [insertBlockElements_buffer_length]
      · dsimp only
        by_cases h1 : b.currentSize < b.capacity
        · rw [if_pos h1]
          omega
        · rw [if_neg h1]
          omega
      · dsimp only
        rw [Nat.mod_eq_of_lt hlt]

/-- Claim C2 (amended): for every buffer state with `0 < capacity`, in-range
write cursor, `currentSize ≤ capacity` and a slot array of `capacity` cells,
bulk `insert(block, L)` with `L = block.length ≤ capacity` leaves exactly the
same buffer (same slot contents, size and write cursor) as inserting the `L`
elements one at a time in order. (As stated, with `L > capacity` included,
the claim is false: see the counterexample.) -/
theorem C2_bulk_matches_single_for_small_blocks {α : Type} (b : RingBuffer α)
    (block : List α) (hcap : 0 < b.capacity) (hlen : b.buffer.length = b.capacity)
    (hwp : b.writePosition < b.capacity) (hsz : b.currentSize ≤ b.capacity)
    (hL : block.length ≤ b.capacity) :
    insertList b block = some (insertBlockImpl b block block.length) := by
  obtain ⟨b', hrun, hcap', hlen', hwp', hsz', hA, hB⟩ :=
    insertList_spec block b hcap hlen hwp hsz
  have hA' : ∀ j, j < block.length →
      b'.buffer.getD ((b.writePosition + j) % b.capacity) none = block[j]? := by
    intro j hj
    have h1 := hA (block.length - 1 - j) (by omega) (by omega)
    have h2 : block.length - 1 - (block.length - 1 - j) = j := by omega
    rw [h2] at h1
    exact h1
  obtain ⟨hic, hil, his, hiw⟩ := insertBlockImpl_index_spec b block block.length hcap hwp hsz
  have hadj : (if block.length > b.capacity then b.capacity else block.length)
      = block.length := if_neg (by omega)
  have hbuf : (insertBlockImpl b block block.length).buffer = b'.buffer := by
    simp only [insertBlockImpl, hadj, Nat.sub_self]
    by_cases hwrap : b.writePosition + block.length > b.capacity
    · rw [if_pos hwrap]
      dsimp only
      have hcore : (insertBlockElements
          (insertBlockElements b block 0 b.writePosition (b.capacity - b.writePosition))
          block (b.capacity - b.writePosition) 0
          (block.length + b.writePosition - b.capacity)).buffer = b'.buffer := by
        apply ext_of_getD
        · rw [insertBlockElements_buffer_length, insertBlockElements_buffer_length,
            hlen, hlen']
        · intro p hp
          rw [insertBlockElements_buffer_length, insertBlockElements_buffer_length,
            hlen] at hp
          rw [insertBlockElements_buffer_getD _ _ _ _ _ _ (by omega)
            (by rw [insertBlockElements_buffer_length, hlen]; exact hp)]
          by_cases hc1 : 0 ≤ p ∧ p < 0 + (block.length + b.writePosition - b.capacity)
          · rw [if_pos hc1]
            have hj := hA' ((b.capacity - b.writePosition) + p) (by omega)
            have hmodp : (b.writePosition + ((b.capacity - b.writePosition) + p))
                % b.capacity = p := by
              have h1 : b.writePosition + ((b.capacity - b.writePosition) + p)
                  = b.capacity + p := by omega
              rw [h1, Nat.add_mod_left, Nat.mod_eq_of_lt hp]
            rw [hmodp] at hj
            have h0 : (b.capacity - b.writePosition) + (p - 0)
                = (b.capacity - b.writePosition) + p := by omega
            rw [h0, hj]
          · rw [if_neg hc1]
            rw [insertBlockElements_buffer_getD _ _ _ _ _ _ (by omega) (by omega)]
            by_cases hc2 : b.writePosition ≤ p ∧
                p < b.writePosition + (b.capacity - b.writePosition)
            · rw [if_pos hc2]
              have hj := hA' (p - b.writePosition) (by omega)
              have hmodp : (b.writePosition + (p - b.writePosition)) % b.capacity = p := by
                have h1 : b.writePosition + (p - b.writePosition) = p := by omega
                rw [h1, Nat.mod_eq_of_lt hp]
              rw [hmodp] at hj
              have h0 : 0 + (p - b.writePosition) = p - b.writePosition := by omega
              rw [h0, hj]
            · rw [if_neg hc2]
              have hfresh : ∀ j, j < block.length →
                  (b.writePosition + j) % b.capacity ≠ p := by
                intro j hj habs
                by_cases hsm : b.writePosition + j < b.capacity
                · rw [Nat.mod_eq_of_lt hsm] at habs
                  omega
                · rw [Nat.mod_eq_sub_mod (by omega),
                    Nat.mod_eq_of_lt (by omega)] at habs
                  omega
              rw [hB p hp hfresh]
      split_ifs
      · exact hcore
      · exact hcore
    · rw [if_neg hwrap]
      dsimp only
      have hcore : (insertBlockElements b block 0 b.writePosition block.length).buffer
          = b'.buffer := by
        apply ext_of_getD
        · rw [insertBlockElements_buffer_length, hlen, hlen']
        · intro p hp
          rw [insertBlockElements_buffer_length, hlen] at hp
          rw [insertBlockElements_buffer_getD _ _ _ _ _ _ (by omega) (by omega)]
          by_cases hc1 : b.writePosition ≤ p ∧ p < b.writePosition + block.length
          · rw [if_pos hc1]
            have hj := hA' (p - b.writePosition) (by omega)
            have hmodp : (b.writePosition + (p - b.writePosition)) % b.capacity = p := by
              have h1 : b.writePosition + (p - b.writePosition) = p := by omega
              rw [h1, Nat.mod_eq_of_lt hp]
            rw [hmodp] at hj
            have h0 : 0 + (p - b.writePosition) = p - b.writePosition := by omega
            rw [h0, hj]
          · rw [if_neg hc1]
            have hfresh : ∀ j, j < block.length →
                (b.writePosition + j) % b.capacity ≠ p := by
              intro j hj habs
              rw [Nat.mod_eq_of_lt (by omega)] at habs
              omega
            rw [hB p hp hfresh]
      split_ifs
      · exact hcore
      · exact hcore
  have hfields : insertBlockImpl b block block.length = b' := by
    apply RingBuffer.ext hbuf (hic.trans hcap'.symm)
    · rw [hiw, Nat.min_eq_left hL, hwp']
    · rw [his, hsz']
  rw [hrun, hfields]

theorem logicalWindow_getD {α : Type} (b : RingBuffer α) (j : Nat)
    (hj : j < b.currentSize) :
    (logicalWindow b).getD j none
      = b.buffer.getD
          ((b.writePosition + b.capacity - b.currentSize + j) % b.capacity) none := by
  unfold logicalWindow
  rw [List.getD_eq_getElem?_getD, List.getElem?_map, List.getElem?_range hj]
  rfl

theorem some_getD_of_isSome {α : Type} [Inhabited α] (o : Option α)
    (h : o.isSome = true) : some (o.getD default) = o := by
  obtain ⟨v, hv⟩ := Option.isSome_iff_exists.mp h
  rw [hv]
  rfl

/-- Witness for C2 at a concrete wrapping input: capacity 3, one slot
occupied, cursor 1, block of length 3. -/
theorem C2_bulk_matches_single_for_small_blocks_witness :
    0 < (⟨[some 9, none, none], 3, 1, 1⟩ : RingBuffer Nat).capacity ∧
    (⟨[some 9, none, none], 3, 1, 1⟩ : RingBuffer Nat).buffer.length = 3 ∧
    (⟨[some 9, none, none], 3, 1, 1⟩ : RingBuffer Nat).writePosition < 3 ∧
    (⟨[some 9, none, none], 3, 1, 1⟩ : RingBuffer Nat).currentSize ≤ 3 ∧
    [1, 2, 3].length ≤ 3 ∧
    insertList (⟨[some 9, none, none], 3, 1, 1⟩ : RingBuffer Nat) [1, 2, 3]
      = some (insertBlockImpl (⟨[some 9, none, none], 3, 1, 1⟩ : RingBuffer Nat) [1, 2, 3]
          [1, 2, 3].length) :=
  ⟨by decide, by decide, by decide, by decide, by decide,
    C2_bulk_matches_single_for_small_blocks (⟨[some 9, none, none], 3, 1, 1⟩ : RingBuffer Nat)
      [1, 2, 3] (by decide) (by decide) (by decide) (by decide) (by decide)⟩

/-- Counterexample to claim C2 as stated: take a capacity-3 buffer after one
single insert (write cursor 1) and offer the block `[1, 2, 3, 4, 5]` of
length 5 > 3. One-at-a-time insertion ends with slots `3, 4, 5` and cursor 0;
the bulk insert ends with slots `3, 3, 4` and cursor 1 — different contents
and cursor, and even the most recent element read back by `copy(0)` differs
(`5` vs `3`): the second wraparound span copies from source offset
`capacity - writePosition` instead of the cropped offset, and the bulk
cursor advances by `min(L, C)` rather than `L`. -/
theorem C2_counterexample :
    insertImpl (mkRingBuffer 3 : RingBuffer Nat) 0
      = some (⟨[some 0, none, none], 3, 1, 1⟩ : RingBuffer Nat) ∧
    insertList (⟨[some 0, none, none], 3, 1, 1⟩ : RingBuffer Nat) [1, 2, 3, 4, 5]
      = some (⟨[some 3, some 4, some 5], 3, 0, 3⟩ : RingBuffer Nat) ∧
    insertBlockImpl (⟨[some 0, none, none], 3, 1, 1⟩ : RingBuffer Nat) [1, 2, 3, 4, 5] 5
      = (⟨[some 3, some 3, some 4], 3, 1, 3⟩ : RingBuffer Nat) ∧
    (⟨[some 3, some 4, some 5], 3, 0, 3⟩ : RingBuffer Nat)
      ≠ (⟨[some 3, some 3, some 4], 3, 1, 3⟩ : RingBuffer Nat) ∧
    copy (⟨[some 3, some 4, some 5], 3, 0, 3⟩ : RingBuffer Nat) 0 = some 5 ∧
    copy (⟨[some 3, some 3, some 4], 3, 1, 3⟩ : RingBuffer Nat) 0 = some 3 := by
  decide

/-- Claim C1: after inserting `N > C` elements one at a time into an initially
empty buffer of capacity `C > 0`, `copy(i)` for `i < C` returns the
`(N-1-i)`-th inserted element: most-recent-first, the oldest `N - C`
elements overwritten. -/
theorem C1_overwrite_order {α : Type} (C : Nat) (xs : List α) (i : Nat)
    (b' : RingBuffer α) (hC : 0 < C) (hN : C < xs.length) (hi : i < C)
    (hrun : insertList (mkRingBuffer C) xs = some b') :
    copy b' i = xs[xs.length - 1 - i]? := by
  obtain ⟨b'', hrun', hcap', hlen', hwp', hsz', hA, hB⟩ :=
    insertList_spec xs (mkRingBuffer C) hC (by simp [mkRingBuffer]) hC (Nat.zero_le _)
  rw [hrun] at hrun'
  have hbb : b'' = b' := (Option.some.inj hrun').symm
  subst hbb
  simp only [mkRingBuffer] at hcap' hwp' hsz'
  have hAi := hA i (by omega) hi
  simp only [mkRingBuffer, Nat.zero_add] at hAi
  have hszC : b''.currentSize = C := by
    rw [hsz']
    omega
  have hsznz : ¬(b''.currentSize = 0) := by omega
  simp only [copy, if_neg hsznz]
  rw [hcap', hwp', Nat.zero_add]
  have hieq : i % C = i := Nat.mod_eq_of_lt hi
  rw [hieq]
  have h1 : xs.length % C + C - 1 - i = xs.length % C + (C - 1 - i) := by omega
  have hidx : (xs.length % C + C - 1 - i) % C = (xs.length - 1 - i) % C := by
    rw [h1, Nat.mod_add_mod]
    have h2 : xs.length + (C - 1 - i) = (xs.length - 1 - i) + C := by omega
    rw [h2, Nat.add_mod_right]
  rw [hidx]
  exact hAi

/-- Witness for C1: capacity 2, inserts `[5, 6, 7]`, read-back index 0. -/
theorem C1_overwrite_order_witness :
    0 < 2 ∧ 2 < [5, 6, 7].length ∧ 0 < 2 ∧
    insertList (mkRingBuffer 2 : RingBuffer Nat) [5, 6, 7]
      = some (⟨[some 7, some 6], 2, 1, 2⟩ : RingBuffer Nat) ∧
    copy (⟨[some 7, some 6], 2, 1, 2⟩ : RingBuffer Nat) 0 = [5, 6, 7][[5, 6, 7].length - 1 - 0]? :=
  ⟨by decide, by decide, by decide, by decide,
    C1_overwrite_order 2 [5, 6, 7] 0 (⟨[some 7, some 6], 2, 1, 2⟩ : RingBuffer Nat)
      (by decide) (by decide) (by decide) (by decide)⟩

/-- Size and cursor bookkeeping of any run of insert operations from a
buffer with in-range cursor and size. -/
theorem runInserts_spec {α : Type} :
    ∀ (ops : List (InsertOp α)) (b : RingBuffer α),
      0 < b.capacity → b.buffer.length = b.capacity →
      b.writePosition < b.capacity → b.currentSize ≤ b.capacity →
      ∃ b', runInserts b ops = some b' ∧
        b'.capacity = b.capacity ∧ b'.buffer.length = b'.capacity ∧
        b'.writePosition < b'.capacity ∧
        b'.currentSize = min b.capacity (b.currentSize + totalInserted ops) := by
  intro ops
  induction ops with
  | nil =>
    intro b hcap hlen hwp hsz
    refine ⟨b, rfl, rfl, hlen, hwp, ?_⟩
    simp only [totalInserted, List.map_nil, List.sum_nil]
    omega
  | cons op ops ih =>
    intro b hcap hlen hwp hsz
    have hcapne : b.capacity ≠ 0 := Nat.pos_iff_ne_zero.mp hcap
    have htot : totalInserted (op :: ops) = opElements op + totalInserted ops := by
      simp [totalInserted]
    cases op with
    | single x =>
      have hstep : runInserts b (InsertOp.single x :: ops)
          = runInserts (insertStep b x) ops := by
        simp [runInserts, applyInsertOp, insertImpl, hcapne]
      obtain ⟨b', hrun, hc, hl, hw, hs⟩ := ih (insertStep b x)
        hcap (by simp [insertStep, hlen]) (Nat.mod_lt _ hcap)
        (by simp only [insertStep]; split_ifs <;> omega)
      refine ⟨b', by rw [hstep, hrun], hc, hl, hw, ?_⟩
      rw [hs, htot]
      simp only [insertStep, opElements]
      split_ifs <;> omega
    | block xs =>
      obtain ⟨hic, hil, his, hiw⟩ := insertBlockImpl_index_spec b xs xs.length hcap hwp hsz
      have hstep : runInserts b (InsertOp.block xs :: ops)
          = runInserts (insertBlockImpl b xs xs.length) ops := by
        simp [runInserts, applyInsertOp]
      obtain ⟨b', hrun, hc, hl, hw, hs⟩ := ih (insertBlockImpl b xs xs.length)
        (by rw [hic]; exact hcap) (by rw [hil, hic, hlen])
        (by rw [hiw, hic]; exact Nat.mod_lt _ hcap)
        (by rw [his, hic]; omega)
      refine ⟨b', by rw [hstep, hrun], by rw [hc, hic], hl, hw, ?_⟩
      rw [hs, his, hic, htot]
      simp only [opElements]
      omega

/-- Claim C3: for every sequence of single-element and bulk inserts on a
fresh buffer of capacity `C > 0`, `currentSize() ≤ capacity()` holds, and
`currentSize()` equals `min(capacity(), total elements ever inserted)`. -/
theorem C3_size_is_min_of_capacity_and_total {α : Type} (C : Nat)
    (ops : List (InsertOp α)) (b' : RingBuffer α) (hC : 0 < C)
    (hrun : runInserts (mkRingBuffer C) ops = some b') :
    b'.currentSize ≤ b'.capacity ∧
    b'.currentSize = min b'.capacity (totalInserted ops) := by
  obtain ⟨b'', hrun', hc, _, _, hs⟩ :=
    runInserts_spec ops (mkRingBuffer C) hC (by simp [mkRingBuffer]) hC (Nat.zero_le _)
  rw [hrun] at hrun'
  have hbb : b'' = b' := (Option.some.inj hrun').symm
  subst hbb
  simp only [mkRingBuffer] at hc hs
  rw [hc, hs]
  constructor
  · omega
  · omega

/-- Witness for C3: capacity 3, a single insert, a bulk insert of 4 and
another single insert — 6 elements offered in total, size ends at 3. -/
theorem C3_size_is_min_of_capacity_and_total_witness :
    0 < 3 ∧
    runInserts (mkRingBuffer 3 : RingBuffer Nat)
        [InsertOp.single 4, InsertOp.block [5, 6, 7, 8], InsertOp.single 9]
      = some (⟨[some 7, some 9, some 7], 3, 2, 3⟩ : RingBuffer Nat) ∧
    (⟨[some 7, some 9, some 7], 3, 2, 3⟩ : RingBuffer Nat).currentSize
      ≤ (⟨[some 7, some 9, some 7], 3, 2, 3⟩ : RingBuffer Nat).capacity ∧
    (⟨[some 7, some 9, some 7], 3, 2, 3⟩ : RingBuffer Nat).currentSize
      = min (⟨[some 7, some 9, some 7], 3, 2, 3⟩ : RingBuffer Nat).capacity
          (totalInserted [InsertOp.single (4 : Nat), InsertOp.block [5, 6, 7, 8],
            InsertOp.single 9]) :=
  ⟨by decide, by decide,
    (C3_size_is_min_of_capacity_and_total 3
      [InsertOp.single 4, InsertOp.block [5, 6, 7, 8], InsertOp.single 9]
      (⟨[some 7, some 9, some 7], 3, 2, 3⟩ : RingBuffer Nat) (by decide) (by decide)).1,
    (C3_size_is_min_of_capacity_and_total 3
      [InsertOp.single 4, InsertOp.block [5, 6, 7, 8], InsertOp.single 9]
      (⟨[some 7, some 9, some 7], 3, 2, 3⟩ : RingBuffer Nat) (by decide) (by decide)).2⟩

/-- Claim C5: the code. On a capacity-0 buffer (the default-constructed
state) the single-element insert does not complete as a silent no-op: its
C++ body calls a destructor and a placement-new on slot 0 of a zero-length
allocation and computes `(writePosition_ + 1) % 0`, a division by zero —
undefined behavior, modelled as `none`. -/
theorem C5_capacity_zero_insert_is_undefined :
    insertImpl (mkRingBuffer 0 : RingBuffer Nat) 42 = none := rfl

/-- Counterexample to claim C6 as stated: when the allocation inside
`reset(newCapacity)` fails (here: old capacity 3, requested capacity 7), the
call completes with `capacity()` reporting 7, not the old capacity 3 —
`capacity_ = newCapacity` was assigned before the allocation was attempted. -/
theorem C6_counterexample :
    resetWithCapacity (mkRingBuffer 3 : RingBuffer Nat) 7 false
      = some (⟨[none, none, none], 7, 0, 0⟩ : RingBuffer Nat) ∧ (7 : Nat) ≠ 3 := by
  decide

/-- Claim C6 (amended): if the allocation inside `reset(newCapacity)` fails,
the old storage has indeed not been released (the slot array is the one the
preceding `reset()` left behind), and size and cursor are the values
`reset()` left, but `capacity()` reports the new capacity — the buffer is not
in its previous valid state. -/
theorem C6_alloc_failure_keeps_storage_but_reports_new_capacity {α : Type}
    (b : RingBuffer α) (newCapacity : Nat) (b1 : RingBuffer α)
    (hreset : reset b = some b1) :
    ∃ b2, resetWithCapacity b newCapacity false = some b2 ∧
      b2.capacity = newCapacity ∧ b2.buffer = b1.buffer ∧
      b2.writePosition = b1.writePosition ∧ b2.currentSize = b1.currentSize := by
  refine ⟨{ b1 with capacity := newCapacity }, ?_, rfl, rfl, rfl, rfl⟩
  simp [resetWithCapacity, hreset]

/-- Witness for C6 (amended) at a concrete input: a full buffer of capacity
2, new capacity 5, failing allocation. -/
theorem C6_alloc_failure_keeps_storage_but_reports_new_capacity_witness :
    reset (⟨[some 1, some 2], 2, 0, 2⟩ : RingBuffer Nat)
      = some (⟨[none, none], 2, 0, 0⟩ : RingBuffer Nat) ∧
    (∃ b2, resetWithCapacity (⟨[some 1, some 2], 2, 0, 2⟩ : RingBuffer Nat) 5 false
        = some b2 ∧
      b2.capacity = 5 ∧ b2.buffer = (⟨[none, none], 2, 0, 0⟩ : RingBuffer Nat).buffer ∧
      b2.writePosition = (⟨[none, none], 2, 0, 0⟩ : RingBuffer Nat).writePosition ∧
      b2.currentSize = (⟨[none, none], 2, 0, 0⟩ : RingBuffer Nat).currentSize) :=
  ⟨by decide,
    C6_alloc_failure_keeps_storage_but_reports_new_capacity
      (⟨[some 1, some 2], 2, 0, 2⟩ : RingBuffer Nat) 5
      (⟨[none, none], 2, 0, 0⟩ : RingBuffer Nat) (by decide)⟩

/-- Claim C7: on a buffer of positive capacity that is full, `copy(k + C)`
returns the same element as `copy(k)`; indexing wraps every `capacity`
steps. -/
theorem C7_copy_aliases_modulo_capacity {α : Type} (b : RingBuffer α) (k : Nat)
    (hcap : 0 < b.capacity) (hfull : b.currentSize = b.capacity) :
    copy b (k + b.capacity) = copy b k := by
  simp only [copy, Nat.add_mod_right]

/-- Witness for C7: a full buffer of capacity 2, `copy(1 + 2) = copy(1)`. -/
theorem C7_copy_aliases_modulo_capacity_witness :
    0 < (⟨[some 4, some 5], 2, 1, 2⟩ : RingBuffer Nat).capacity ∧
    (⟨[some 4, some 5], 2, 1, 2⟩ : RingBuffer Nat).currentSize
      = (⟨[some 4, some 5], 2, 1, 2⟩ : RingBuffer Nat).capacity ∧
    copy (⟨[some 4, some 5], 2, 1, 2⟩ : RingBuffer Nat) (1 + 2)
      = copy (⟨[some 4, some 5], 2, 1, 2⟩ : RingBuffer Nat) 1 :=
  ⟨by decide, by decide,
    C7_copy_aliases_modulo_capacity (⟨[some 4, some 5], 2, 1, 2⟩ : RingBuffer Nat) 1
      (by decide) (by decide)⟩

/-- Counterexample to claim C8 as stated: capacity 3, write cursor 1, an
owned source of 10 live elements bulk-inserted with length 10. Index 9 is a
selected index (`10 - min 10 3 = 7 ≤ 9 < 10`), yet after the call the source
element at index 9 is still live — it was never move-constructed into the
buffer (the second wraparound span reads from source offset
`capacity - writePosition` instead of the cropped offset). -/
theorem C8_counterexample :
    10 - min 10 3 ≤ 9 ∧ 9 < 10 ∧
    (insertBlockSourceEffect 3 1 true
        (List.map MCell.live (List.range 10) : List (MCell Nat)) 10).getD 9 MCell.movedFrom
      = MCell.live 9 := by
  decide

/-- Claim C8 (amended): an lvalue source is never touched; and when
`blockLength ≤ capacity` or the write cursor is 0, an owned (rvalue) source
has exactly its selected trailing `min(blockLength, capacity)` elements
move-constructed out (left moved-from) and its unselected elements
untouched. (For `blockLength > capacity` with a nonzero cursor this fails:
see the counterexample.) -/
theorem C8_move_copy_forwarding_amended {α : Type} (capacity writePosition : Nat)
    (src : List (MCell α)) (blockLength : Nat) (hlen : src.length = blockLength)
    (hok : blockLength ≤ capacity ∨ writePosition = 0) :
    insertBlockSourceEffect capacity writePosition false src blockLength = src ∧
    (∀ k, k < blockLength →
      (insertBlockSourceEffect capacity writePosition true src blockLength).getD k
          MCell.movedFrom
        = if blockLength - min blockLength capacity ≤ k then MCell.movedFrom
          else src.getD k MCell.movedFrom) := by
  constructor
  · rfl
  · intro k hk
    have hadj : (if blockLength > capacity then capacity else blockLength)
        = min blockLength capacity := by
      split_ifs <;> omega
    simp only [insertBlockSourceEffect, Bool.not_true, Bool.false_eq_true, if_false, hadj]
    by_cases hwrap : writePosition + min blockLength capacity > capacity
    · rw [if_pos hwrap]
      have hLc : blockLength ≤ capacity := by
        rcases hok with h | h
        · exact h
        · omega
      rw [getD_moveRange _ _ _ _ _ (by rw [length_moveRange, hlen]; omega)]
      rw [getD_moveRange _ _ _ _ _ (by rw [hlen]; omega)]
      rw [if_pos (show blockLength - min blockLength capacity ≤ k by omega)]
      by_cases hk1 : capacity - writePosition ≤ k ∧
          k < capacity - writePosition + (min blockLength capacity + writePosition - capacity)
      · rw [if_pos hk1]
      · rw [if_neg hk1,
          if_pos (show blockLength - min blockLength capacity ≤ k ∧
            k < blockLength - min blockLength capacity + (capacity - writePosition) by omega)]
    · rw [if_neg hwrap]
      rw [getD_moveRange _ _ _ _ _ (by rw [hlen]; omega)]
      by_cases hk1 : blockLength - min blockLength capacity ≤ k
      · rw [if_pos (show blockLength - min blockLength capacity ≤ k ∧
            k < blockLength - min blockLength capacity + min blockLength capacity by omega),
          if_pos hk1]
      · rw [if_neg (show ¬(blockLength - min blockLength capacity ≤ k ∧
            k < blockLength - min blockLength capacity + min blockLength capacity) by omega),
          if_neg hk1]

/-- Witness for C8 at a concrete wrapping rvalue input: capacity 3, cursor 2,
owned source of length 2 — both elements selected and moved. -/
theorem C8_move_copy_forwarding_amended_witness :
    ([MCell.live 1, MCell.live 2] : List (MCell Nat)).length = 2 ∧
    (2 ≤ 3 ∨ (2 : Nat) = 0) ∧
    insertBlockSourceEffect 3 2 false ([MCell.live 1, MCell.live 2] : List (MCell Nat)) 2
      = [MCell.live 1, MCell.live 2] ∧
    (∀ k, k < 2 →
      (insertBlockSourceEffect 3 2 true ([MCell.live 1, MCell.live 2] : List (MCell Nat)) 2).getD
          k MCell.movedFrom
        = if 2 - min 2 3 ≤ k then MCell.movedFrom
          else ([MCell.live 1, MCell.live 2] : List (MCell Nat)).getD k MCell.movedFrom) :=
  ⟨by decide, by decide,
    (C8_move_copy_forwarding_amended 3 2 ([MCell.live 1, MCell.live 2] : List (MCell Nat)) 2
      (by decide) (by decide)).1,
    (C8_move_copy_forwarding_amended 3 2 ([MCell.live 1, MCell.live 2] : List (MCell Nat)) 2
      (by decide) (by decide)).2⟩

/-- Claim C9: the sequential variant's bulk `copy(destination,
numberOfElements)` never mutates the buffer (slots or index state) — its code
path contains no member store — and re-running it on the unchanged buffer
yields the identical destination contents, count and buffer state. -/
theorem C9_sequential_bulk_copy_is_repeatable {α : Type} [Inhabited α]
    (b : RingBuffer α) (destination : List α) (numberOfElements : Nat) :
    (copyBlock b destination numberOfElements).1 = b ∧
    copyBlock (copyBlock b destination numberOfElements).1 destination numberOfElements
      = copyBlock b destination numberOfElements :=
  ⟨rfl, rfl⟩

/-- Claim C10: on an empty buffer, the single-element accessor returns a
default-constructed `Element` in both the sequential variant (`copy`) and the
concurrent variant (`extractImpl`, which in addition returns before its
`readPosition_` store, leaving the index state unchanged). -/
theorem C10_empty_single_read_returns_default {α : Type} (b : RingBuffer α)
    (c : CRingBuffer α) (s t : Nat) (hb : b.currentSize = 0) (hc : c.currentSize = 0) :
    copy b s = none ∧ extractImpl c t = (c, none) := by
  constructor
  · simp [copy, hb]
  · simp [extractImpl, hc]

/-- Witness for C10: an empty sequential buffer of capacity 3 and an empty
concurrent buffer of capacity 2. -/
theorem C10_empty_single_read_returns_default_witness :
    (mkRingBuffer 3 : RingBuffer Nat).currentSize = 0 ∧
    (⟨[none, none], 2, 0, 0, 0⟩ : CRingBuffer Nat).currentSize = 0 ∧
    copy (mkRingBuffer 3 : RingBuffer Nat) 7 = none ∧
    extractImpl (⟨[none, none], 2, 0, 0, 0⟩ : CRingBuffer Nat) 5
      = ((⟨[none, none], 2, 0, 0, 0⟩ : CRingBuffer Nat), none) :=
  ⟨by decide, by decide,
    (C10_empty_single_read_returns_default (mkRingBuffer 3 : RingBuffer Nat)
      (⟨[none, none], 2, 0, 0, 0⟩ : CRingBuffer Nat) 7 5 (by decide) (by decide)).1,
    (C10_empty_single_read_returns_default (mkRingBuffer 3 : RingBuffer Nat)
      (⟨[none, none], 2, 0, 0, 0⟩ : CRingBuffer Nat) 7 5 (by decide) (by decide)).2⟩

/-- Claim C4: on every reachable buffer state whose occupied slots hold live
elements, bulk extraction `copy(destination, n)` writes exactly
`min(n, currentSize)` elements into the destination in oldest-to-newest order
(`destination[0]` is the oldest of the copied window), leaves the rest of the
destination untouched, and returns that clamped count — an over-large request
is clamped, not an error. -/
theorem C4_bulk_copy_clamps_and_is_oldest_first {α : Type} [Inhabited α]
    (b : RingBuffer α) (destination : List α) (numberOfElements : Nat)
    (hreach : Reachable b)
    (hocc : ∀ j, j < b.currentSize → ((logicalWindow b).getD j none).isSome = true) :
    (extractBlockElements b destination numberOfElements).2
      = min numberOfElements b.currentSize ∧
    (extractBlockElements b destination numberOfElements).1.length
      = destination.length ∧
    (∀ i, i < min numberOfElements b.currentSize → i < destination.length →
      some ((extractBlockElements b destination numberOfElements).1.getD i default)
        = (logicalWindow b).getD
            (b.currentSize - min numberOfElements b.currentSize + i) none) ∧
    (∀ i, min numberOfElements b.currentSize ≤ i → i < destination.length →
      (extractBlockElements b destination numberOfElements).1.getD i default
        = destination.getD i default) := by
  obtain ⟨hlen, hszle, hnotfull, hc0, hcpos⟩ := hreach
  have hn : (if numberOfElements > b.currentSize then b.currentSize
      else numberOfElements) = min numberOfElements b.currentSize := by
    split_ifs <;> omega
  simp only [extractBlockElements, hn, extractBlockElementsImpl]
  by_cases hn0 : min numberOfElements b.currentSize > 0
  swap
  · rw [if_neg hn0]
    refine ⟨rfl, rfl, ?_, ?_⟩
    · intro i hi _
      omega
    · intro i _ _
      rfl
  rw [if_pos hn0]
  dsimp only
  have hsz0 : 0 < b.currentSize := by omega
  have hcap0 : 0 < b.capacity := by omega
  have hwplt : b.writePosition < b.capacity := hcpos hcap0
  set n := min numberOfElements b.currentSize with hndef
  set start := (b.writePosition + (b.currentSize - n)) % b.currentSize with hstartdef
  have hstartlt : start < b.currentSize := Nat.mod_lt _ hsz0
  by_cases hA : b.currentSize < b.capacity
  · -- not-yet-full buffer: cursor equals size, single contiguous span
    have hwps : b.writePosition = b.currentSize := hnotfull hA
    have hstart : start = b.currentSize - n := by
      rw [hstartdef, hwps, Nat.add_mod_left, Nat.mod_eq_of_lt (by omega)]
    have hspan : (if b.currentSize - start < n then b.currentSize - start else n)
        = n := by
      rw [hstart, if_neg (by omega)]
    rw [hspan]
    have hcnt : start + n - start = n := by omega
    rw [hcnt]
    have hrem : ¬(n - n > 0) := by omega
    rw [if_neg hrem]
    refine ⟨rfl, by rw [length_extractLoop], ?_, ?_⟩
    · intro i hi hid
      rw [getD_extractLoop _ _ _ _ _ _ _ hid, if_pos (by omega)]
      have hoccj := hocc (b.currentSize - n + i) (by omega)
      rw [logicalWindow_getD _ _ (by omega)] at hoccj ⊢
      have hwidx : (b.writePosition + b.capacity - b.currentSize
          + (b.currentSize - n + i)) % b.capacity = b.currentSize - n + i := by
        have h1 : b.writePosition + b.capacity - b.currentSize
            + (b.currentSize - n + i) = b.capacity + (b.currentSize - n + i) := by
          omega
        rw [h1, Nat.add_mod_left, Nat.mod_eq_of_lt (by omega)]
      rw [hwidx] at hoccj ⊢
      have hfi : start + (i - 0) = b.currentSize - n + i := by
        rw [hstart]
        omega
      rw [hfi]
      exact some_getD_of_isSome _ hoccj
    · intro i hni hid
      rw [getD_extractLoop _ _ _ _ _ _ _ hid, if_neg (by omega)]
  · -- full buffer: size = capacity, up to two spans
    have hszc : b.currentSize = b.capacity := by omega
    have hmodadd : ∀ i, (start + i) % b.currentSize
        = (b.writePosition + (b.currentSize - n) + i) % b.currentSize := by
      intro i
      rw [hstartdef, Nat.mod_add_mod]
    have hwinidx : ∀ i, i < n →
        (b.writePosition + b.capacity - b.currentSize + (b.currentSize - n + i))
            % b.capacity = (start + i) % b.currentSize := by
      intro i hi
      rw [hmodadd i]
      have h1 : b.writePosition + b.capacity - b.currentSize
          + (b.currentSize - n + i) = b.writePosition + (b.currentSize - n) + i := by
        omega
      rw [h1, hszc]
    by_cases hsplit : b.currentSize - start < n
    · -- wrapping window: two spans
      rw [if_pos hsplit]
      have hcnt : start + (b.currentSize - start) - start = b.currentSize - start := by
        omega
      rw [hcnt]
      have hrem : n - (b.currentSize - start) > 0 := by omega
      rw [if_pos hrem]
      have hsor : (start + (b.currentSize - start)) % b.currentSize = 0 := by
        have h1 : start + (b.currentSize - start) = b.currentSize := by omega
        rw [h1, Nat.mod_self]
      rw [hsor]
      have hcnt2 : 0 + (n - (b.currentSize - start)) - 0
          = n - (b.currentSize - start) := by omega
      rw [hcnt2]
      refine ⟨rfl, by rw [length_extractLoop, length_extractLoop], ?_, ?_⟩
      · intro i hi hid
        have hoccj := hocc (b.currentSize - n + i) (by omega)
        rw [logicalWindow_getD _ _ (by omega)] at hoccj ⊢
        rw [hwinidx i hi] at hoccj ⊢
        rw [getD_extractLoop _ _ _ _ _ _ _ (by rw [length_extractLoop]; exact hid)]
        by_cases hi2 : b.currentSize - start ≤ i
        · rw [if_pos (by omega)]
          have hmod2 : (start + i) % b.currentSize = i - (b.currentSize - start) := by
            have h2 : start + i = (i - (b.currentSize - start)) + b.currentSize := by
              omega
            rw [h2, Nat.add_mod_right, Nat.mod_eq_of_lt (by omega)]
          rw [hmod2] at hoccj ⊢
          have hfi : 0 + (i - (b.currentSize - start)) = i - (b.currentSize - start) := by
            omega
          rw [hfi]
          exact some_getD_of_isSome _ hoccj
        · rw [if_neg (by omega)]
          rw [getD_extractLoop _ _ _ _ _ _ _ hid, if_pos (by omega)]
          have hmod2 : (start + i) % b.currentSize = start + i :=
            Nat.mod_eq_of_lt (by omega)
          rw [hmod2] at hoccj ⊢
          have hfi : start + (i - 0) = start + i := by omega
          rw [hfi]
          exact some_getD_of_isSome _ hoccj
      · intro i hni hid
        rw [getD_extractLoop _ _ _ _ _ _ _ (by rw [length_extractLoop]; exact hid),
          if_neg (by omega)]
        rw [getD_extractLoop _ _ _ _ _ _ _ hid, if_neg (by omega)]
    · -- window fits in one span
      rw [if_neg hsplit]
      have hcnt : start + n - start = n := by omega
      rw [hcnt]
      have hrem : ¬(n - n > 0) := by omega
      rw [if_neg hrem]
      refine ⟨rfl, by rw [length_extractLoop], ?_, ?_⟩
      · intro i hi hid
        have hoccj := hocc (b.currentSize - n + i) (by omega)
        rw [logicalWindow_getD _ _ (by omega)] at hoccj ⊢
        rw [hwinidx i hi] at hoccj ⊢
        rw [getD_extractLoop _ _ _ _ _ _ _ hid, if_pos (by omega)]
        have hmod2 : (start + i) % b.currentSize = start + i :=
          Nat.mod_eq_of_lt (by omega)
        rw [hmod2] at hoccj ⊢
        have hfi : start + (i - 0) = start + i := by omega
        rw [hfi]
        exact some_getD_of_isSome _ hoccj
      · intro i hni hid
        rw [getD_extractLoop _ _ _ _ _ _ _ hid, if_neg (by omega)]

/-- Witness for C4: a full buffer of capacity 3 with cursor 1 (window
`20, 30, 10` oldest first), destination of 4 cells, request of 5 elements
clamped to 3. -/
theorem C4_bulk_copy_clamps_and_is_oldest_first_witness :
    Reachable (⟨[some 10, some 20, some 30], 3, 1, 3⟩ : RingBuffer Nat) ∧
    (∀ j, j < (⟨[some 10, some 20, some 30], 3, 1, 3⟩ : RingBuffer Nat).currentSize →
      ((logicalWindow (⟨[some 10, some 20, some 30], 3, 1, 3⟩ : RingBuffer Nat)).getD j
          none).isSome = true) ∧
    ((extractBlockElements (⟨[some 10, some 20, some 30], 3, 1, 3⟩ : RingBuffer Nat)
        [0, 0, 0, 0] 5).2 = min 5 3 ∧
      (extractBlockElements (⟨[some 10, some 20, some 30], 3, 1, 3⟩ : RingBuffer Nat)
        [0, 0, 0, 0] 5).1.length = [0, 0, 0, 0].length ∧
      (∀ i, i < min 5 3 → i < [0, 0, 0, 0].length →
        some ((extractBlockElements (⟨[some 10, some 20, some 30], 3, 1, 3⟩ :
            RingBuffer Nat) [0, 0, 0, 0] 5).1.getD i default)
          = (logicalWindow (⟨[some 10, some 20, some 30], 3, 1, 3⟩ :
              RingBuffer Nat)).getD (3 - min 5 3 + i) none) ∧
      (∀ i, min 5 3 ≤ i → i < [0, 0, 0, 0].length →
        (extractBlockElements (⟨[some 10, some 20, some 30], 3, 1, 3⟩ :
            RingBuffer Nat) [0, 0, 0, 0] 5).1.getD i default
          = [0, 0, 0, 0].getD i default)) :=
  ⟨by decide, by decide,
    C4_bulk_copy_clamps_and_is_oldest_first
      (⟨[some 10, some 20, some 30], 3, 1, 3⟩ : RingBuffer Nat) [0, 0, 0, 0] 5
      (by decide) (by decide)⟩

end Buffer
